import Mathlib

/-!
Verification of `pandas_ext/ios.py` (convenience wrappers around tabular I/O:
path incrementing, separator and encoding detection, extension dispatch,
chunked export).  The Python functions are shallowly embedded below; the
filesystem is modelled as the list of currently existing paths, pandas calls
are modelled as oracles, and loops whose termination depends on the
filesystem carry an explicit fuel argument (the real loop has no bound).
-/

set_option maxHeartbeats 1000000

/-! ## Basic string helpers (Python semantics on `List Char`) -/

/-- Lower-casing as `str.lower` behaves on ASCII input (all inputs relevant to
the claims are ASCII). -/
def asciiLowerChar (c : Char) : Char :=
  if 'A' ≤ c ∧ c ≤ 'Z' then Char.ofNat (c.toNat + 32) else c

/-- Model of `str.lower` (ASCII fragment). -/
def asciiLower (s : String) : String := ⟨s.data.map asciiLowerChar⟩

/-- Occurrence test for a pattern inside a list, as Python `pat in s`
(contiguous substring; the empty pattern occurs in every string). -/
def containsSubL (hay pat : List Char) : Bool :=
  match hay with
  | [] => pat.isEmpty
  | c :: rest => pat.isPrefixOf (c :: rest) || containsSubL rest pat

/-- Python `a in b` on strings: `a` occurs as a contiguous substring of `b`. -/
def pyIn (a b : String) : Bool := containsSubL b.data a.data

/-- Fuel-driven worker for `str.replace`: replaces every non-overlapping
occurrence of `pat`, scanning left to right.  Fuel at least the length of the
scanned list makes the fuel irrelevant. -/
def replaceAllFuel : Nat → List Char → List Char → List Char → List Char
  | 0, s, _, _ => s
  | fuel + 1, s, pat, rep =>
    match s with
    | [] => []
    | c :: rest =>
      if pat ≠ [] ∧ pat.isPrefixOf (c :: rest) then
        rep ++ replaceAllFuel fuel ((c :: rest).drop pat.length) pat rep
      else
        c :: replaceAllFuel fuel rest pat rep

/-- Model of Python `s.replace(pat, rep)` (all occurrences, left to right,
non-overlapping).  `path_incremented` only calls it with a non-empty `pat`. -/
def replaceAll (s pat rep : List Char) : List Char :=
  replaceAllFuel s.length s pat rep

/-- Value of a big-endian string of decimal digit characters, as Python
`int(val)` computes it for an all-digit string. -/
def digitsVal (l : List Char) : Nat :=
  l.foldl (fun a c => 10 * a + (c.toNat - 48)) 0

/-- Little-endian decimal digits of `n` (empty for `0`); fuel-driven so that
the definition is structural.  Fuel `n` is always sufficient. -/
def natToRevDigits : Nat → Nat → List Char
  | 0, _ => []
  | fuel + 1, n =>
    if n = 0 then []
    else Char.ofNat (48 + n % 10) :: natToRevDigits fuel (n / 10)

/-- Model of Python `str(n)` for a natural number. -/
def natRepr (n : Nat) : List Char :=
  if n = 0 then ['0'] else (natToRevDigits n n).reverse

/-- The maximal run of trailing decimal digits of a string. -/
def trailingDigits (s : String) : List Char :=
  (s.data.reverse.takeWhile Char.isDigit).reverse

/-- Numeric value of the maximal trailing digit run of a string. -/
def trailingDigitsVal (s : String) : Nat := digitsVal (trailingDigits s)

/-! ## posixpath model (`os.path` on POSIX) -/

/-- Index of the last occurrence of `c`, as Python `s.rfind(c)` (`-1` when
absent). -/
def pyRfindAux (c : Char) : List Char → Int → Int → Int
  | [], _, best => best
  | x :: xs, i, best => pyRfindAux c xs (i + 1) (if x = c then i else best)

/-- Python `s.rfind(c)`. -/
def pyRfind (c : Char) (l : List Char) : Int := pyRfindAux c l 0 (-1)

/-- Model of `os.path.basename`: everything after the last slash. -/
def pyBasename (p : String) : String :=
  ⟨(p.data.reverse.takeWhile (fun c => decide (c ≠ '/'))).reverse⟩

/-- Model of `os.path.dirname`: everything up to the last slash, with trailing
slashes stripped unless the head is all slashes. -/
def pyDirname (p : String) : String :=
  let l := p.data
  let head := l.take (pyRfind '/' l + 1).toNat
  if head ≠ [] ∧ head.any (fun c => decide (c ≠ '/')) then
    ⟨(head.reverse.dropWhile (fun c => decide (c = '/'))).reverse⟩
  else ⟨head⟩

/-- Model of `os.path.splitext` on a list of characters: split at the last
dot after the last slash, unless every character between them is a dot
(leading dots of the base name never start an extension). -/
def pySplitextL (l : List Char) : List Char × List Char :=
  let sepIndex := pyRfind '/' l
  let dotIndex := pyRfind '.' l
  if sepIndex < dotIndex then
    if ((l.drop (sepIndex + 1).toNat).take (dotIndex - sepIndex - 1).toNat).any
        (fun c => decide (c ≠ '.')) then
      (l.take dotIndex.toNat, l.drop dotIndex.toNat)
    else (l, [])
  else (l, [])

/-- Model of `os.path.splitext` on strings. -/
def pySplitext (p : String) : String × String :=
  let r := pySplitextL p.data
  (⟨r.1⟩, ⟨r.2⟩)

/-- Model of `os.path.join(a, b)` for a single right argument (POSIX). -/
def pyJoin (a b : String) : String :=
  if b.data.head? = some '/' then b
  else if a.data = [] ∨ a.data.getLast? = some '/' then a ++ b
  else a ++ "/" ++ b

/-! ## PathIncrementer (`path_incremented`)

The filesystem is a list of existing paths; `os.path.exists` is membership.
The `try/except ValueError` of the source only fires when `int(val)` is
applied to the empty string, i.e. when no digit occurs among the last three
characters of the stem. -/

/-- One loop body of `path_incremented`, acting on the stem of the base name:
the digit characters among the last three characters are parsed and bumped
(`str.replace` plus the append fallback), and if there are none the error
counter is appended instead and incremented. -/
def incStep (name : String) (error : Nat) : String × Nat :=
  let chars := name.data
  let val := (chars.drop (chars.length - 3)).filter Char.isDigit
  if val.isEmpty then
    (⟨chars ++ natRepr error⟩, error + 1)
  else
    let count := digitsVal val + 1
    let name1 := replaceAll chars val (natRepr count)
    let name2 :=
      if containsSubL name1 (natRepr count) then name1 else name1 ++ natRepr count
    (⟨name2⟩, error)

/-- The `while os.path.exists(p)` loop of `path_incremented`.  `dir` is the
`os.path.dirname` computed once before the loop; `fuel` bounds the number of
iterations of the model only (the source loop is unbounded, and `none` means
the fuel ran out before the loop exited). -/
def pathIncLoop (fs : List String) (dir : String) (overwrite : Bool) :
    Nat → String → Nat → Option String
  | 0, _, _ => none
  | fuel + 1, p, error =>
    if p ∈ fs then
      let se := pySplitext (pyBasename p)
      let st := incStep se.1 error
      let p2 := pyJoin dir (st.1 ++ se.2)
      if overwrite || decide (2500 < st.2) then some p2
      else pathIncLoop fs dir overwrite fuel p2 st.2
    else some p

/-- Model of `path_incremented(p, overwrite)` against filesystem `fs`. -/
def path_incremented (fs : List String) (p : String) (overwrite : Bool)
    (fuel : Nat) : Option String :=
  pathIncLoop fs (pyDirname p) overwrite fuel p 2

/-! ## EncodingFallbackReader (`read_csv`)

`pd.read_csv(file_path, encoding=c, ...)` is modelled by an oracle
`attempt : String → AttemptResult α` from the tried encoding to either a
parsed table or a raised Python exception.  The first `except` clause of the
source catches `UnicodeError`, `UnicodeDecodeError` and `UnboundLocalError`
and logs the exception when `verbose`; the second catches every other
exception and re-raises it unless its message mentions "tokenizing". -/

/-- The fixed fallback codec list of the module. -/
def CODECS : List String := ["utf8", "iso-8859-1", "ascii", "utf-16", "utf-32"]

/-- Exceptions distinguished by `read_csv`. -/
inductive PyExc where
  | unicodeError
  | unicodeDecodeError
  | unboundLocalError
  | otherError (msg : String)
deriving DecidableEq

/-- Membership in the first `except` clause of `read_csv`. -/
def isCodecCaught : PyExc → Bool
  | .unicodeError => true
  | .unicodeDecodeError => true
  | .unboundLocalError => true
  | .otherError _ => false

/-- Python `str(e)`; only consulted for exceptions of the second `except`
clause, which carry their message. -/
def pyStrExc : PyExc → String
  | .otherError m => m
  | _ => ""

/-- Outcome of one `pd.read_csv` attempt under a given encoding. -/
inductive AttemptResult (α : Type) where
  | ok (t : α)
  | raise (e : PyExc)

/-- Result of `read_csv`: a table, an uncaught re-raised exception, or the
final `IOError` naming the file after all codecs failed. -/
inductive ReadCsvResult (α : Type) where
  | table (t : α)
  | raised (e : PyExc)
  | failedOpen (file_path : String)
deriving DecidableEq

/-- The `for c in codecs` loop of `read_csv`.  The second component collects
the exceptions passed to `logging.info`, which happens only when `verbose`
and only for the codec-related exception class. -/
def read_csv_loop {α : Type} (attempt : String → AttemptResult α)
    (verbose : Bool) (file_path : String) :
    List String → List PyExc → ReadCsvResult α × List PyExc
  | [], log => (.failedOpen file_path, log)
  | c :: cs, log =>
    match attempt c with
    | .ok t => (.table t, log)
    | .raise e =>
      if isCodecCaught e then
        read_csv_loop attempt verbose file_path cs
          (if verbose then log ++ [e] else log)
      else if pyIn "tokenizing" (pyStrExc e) then
        read_csv_loop attempt verbose file_path cs log
      else (.raised e, log)

/-- Admissible results of Python `list(set(l))`: CPython iterates a `set` in
hash order, not insertion order, so the only guarantee is a duplicate-free
enumeration of the elements of `l`. -/
def pySetElems (l enum : List String) : Prop :=
  enum.Nodup ∧ (∀ x ∈ enum, x ∈ l) ∧ (∀ x ∈ l, x ∈ enum)

/-- Model of `read_csv`: a DataFrame argument is returned untouched,
otherwise the codec loop runs over `codecs`, an admissible enumeration of
`set([first_codec] + CODECS)` (constrained by `pySetElems` in the theorems,
since the source fixes no order). -/
def read_csv {α : Type} (input : α ⊕ String)
    (attempt : String → AttemptResult α) (codecs : List String)
    (verbose : Bool) : ReadCsvResult α × List PyExc :=
  match input with
  | .inl df => (.table df, [])
  | .inr file_path => read_csv_loop attempt verbose file_path codecs []


/-! ## SeparatorDetector (`_count`, `_identify_separator`)

The first line of the file is passed as an explicit `header` argument (the
source reads it with `fp.__next__()` after the extension check).  Python
dicts preserve insertion order, so the two dict comprehensions are an
association list over `maybe_seps` followed by a filter, and
`max(d.__iter__(), key=...)` is a left fold keeping the first maximum. -/

/-- Model of `_count` at its call sites: every separator in `maybe_seps` has
length 1, so only the single-character branch
the single-character branch (the length of the characters equal to the item)
is ever exercised. -/
def _countChar (item : Char) (s : String) : Nat :=
  (s.data.filter (fun x => decide (x = item))).length

/-- The fixed candidate separator list, in source order. -/
def maybe_seps : List Char := ['|', ';', ',', '\t', ':']

/-- Python `max(keys, key=lookup)` over the (key, count) pairs of an
insertion-ordered dict: scan left to right, replacing the current best only
on a strictly larger count, so the first maximum wins. -/
def pyMaxKey : Char × Nat → List (Char × Nat) → Char × Nat
  | best, [] => best
  | best, x :: xs => pyMaxKey (if best.2 < x.2 then x else best) xs

/-- Result of `_identify_separator`: the found separator, the `IOError`
reporting the header and searched candidates, or the `AssertionError` about
an unexpected extension (which names the `allowed_exts` list). -/
inductive SepResult where
  | found (sep : Char)
  | unidentified (header : String) (seps : List Char)
  | unexpectedExtension (ext : String) (allowed : List String)
deriving DecidableEq

/-- The counting and selection part of `_identify_separator`, given the
header line. -/
def _identify_separator_header (header : String) : SepResult :=
  match (maybe_seps.map (fun sep => (sep, _countChar sep header))).filter
      (fun p => decide (0 < p.2)) with
  | [] => .unidentified header maybe_seps
  | f :: fs => .found (pyMaxKey f fs).1

/-- Model of `_identify_separator(file_path)` with the first line of the file
supplied as `header`.  The assert fires before the file is opened: the
asserted membership list is `[".csv", ".txt"]` while the error message names
`allowed_exts` with `".tsv"` included. -/
def _identify_separator (file_path : String) (header : String) : SepResult :=
  let ext := asciiLower (pySplitext file_path).2
  if ext ∈ ([".csv", ".txt"] : List String) then
    _identify_separator_header header
  else .unexpectedExtension ext [".csv", ".txt", ".tsv"]

/-! ## FileTypeDispatcher, read side (`read_file`) -/

/-- The reader `read_file` delegates to (the DataFrame passthrough is handled
before the dispatch and not represented in the route). -/
inductive ReadRoute where
  | readExcel
  | readText
  | readCsvDirect
  | readHdf
  | unsupported (ext : String)
deriving DecidableEq

/-- Model of the extension dispatch of `read_file`.  The branch
for gz/bz2/zip/xz is a genuine tuple (whose `.xz` entry is the dot-less
literal `xz` of the source), while the h5 branch tests membership in the
string `".h5"`, i.e. a substring test. -/
def read_file (file_path : String) : ReadRoute :=
  let ext := asciiLower (pySplitext file_path).2
  if ext ∈ ([".xlsx", ".xls"] : List String) then .readExcel
  else if ext ∈ ([".txt", ".tsv", ".csv"] : List String) then .readText
  else if ext ∈ ([".gz", ".bz2", ".zip", "xz"] : List String) then .readCsvDirect
  else if pyIn ext ".h5" then .readHdf
  else .unsupported ext

/-! ## FileTypeDispatcher, write side (`export`) -/

/-- Action taken by `export` for a given target path. -/
inductive ExportAction where
  | toExcel (path : String)
  | toCsv (path : String)
  | notImplementedError (ext : String)
deriving DecidableEq

/-- Model of the identity test of the source against the xlsx literal:
CPython `is` compares object
identity, not value.  Here `ext` is freshly produced at runtime by slicing
(`os.path.splitext`) and `.lower()`, so it is never the same object as the
interned literal and the test is `False` for every input (CPython
even emits a SyntaxWarning for such comparisons). -/
def pyIsLiteralXlsx (_ext : String) : Bool := false

/-- Model of `export(df, to_path)`: dispatch on the lowercased extension.
The exported table does not influence the dispatch and is omitted. -/
def exportDf (to_path : String) : ExportAction :=
  let ext := asciiLower (pySplitext to_path).2
  if pyIsLiteralXlsx ext then .toExcel to_path
  else if ext ∈ ([".txt", ".csv"] : List String) then .toCsv to_path
  else .notImplementedError ext

/-! ## ChunkIterator (`chunks`)

A DataFrame is its list of rows; `df.index.size` is the length,
`df.iloc[0:chunksize]` is `take`, `df.iloc[chunksize:size]` is `drop`.
The generator is modelled as the list of the yielded chunks. -/

/-- The `while df.index.size > 0` loop of `chunks`; fuel-driven so that the
definition is structural.  Fuel `df.length` is sufficient whenever
`0 < k`, which the caller guarantees. -/
def chunksLoopF {α : Type} (k : Nat) : Nat → List α → List (List α)
  | _, [] => []
  | 0, df => [df]
  | fuel + 1, df => df.take k :: chunksLoopF k fuel (df.drop k)

/-- Model of `chunks(df, chunksize)`: one chunk for an unset, non-positive or
too-large `chunksize`, otherwise consecutive `take`/`drop` slices. -/
def chunks {α : Type} (df : List α) (chunksize : Option Int) : List (List α) :=
  match chunksize with
  | none => [df]
  | some cs =>
    if cs ≤ 0 ∨ (df.length : Int) ≤ cs then [df]
    else chunksLoopF cs.toNat df.length df

/-! ## ChunkExporter (`export_chunks`)

`export` writes a file, so the exported path is added to the filesystem
before `path_incremented` runs; `paths.append(to_path)` happens before the
increment. -/

/-- Result of `export_chunks`: the collected paths, or the
`NotImplementedError` propagating out of `export`. -/
inductive ExportChunksOutcome where
  | ok (paths : List String)
  | dispatchError (ext : String)
deriving DecidableEq

/-- The `for chunk in chunks(...)` loop of `export_chunks`.  `none` means the
model fuel of `path_incremented` ran out (the source would still be
looping). -/
def exportChunksLoop {α : Type} (overwrite : Bool) (fuel : Nat) :
    List (List α) → List String → String → List String →
    Option ExportChunksOutcome
  | [], _, _, paths => some (.ok paths)
  | _ :: rest, fs, to_path, paths =>
    match exportDf to_path with
    | .notImplementedError e => some (.dispatchError e)
    | _ =>
      match path_incremented (to_path :: fs) to_path overwrite fuel with
      | none => none
      | some next =>
        exportChunksLoop overwrite fuel rest (to_path :: fs) next
          (paths ++ [to_path])

/-- Model of `export_chunks(df, to_path, max_size, overwrite)` against
filesystem `fs`. -/
def export_chunks {α : Type} (fs : List String) (df : List α)
    (to_path : String) (max_size : Option Int) (overwrite : Bool)
    (fuel : Nat) : Option ExportChunksOutcome :=
  exportChunksLoop overwrite fuel (chunks df max_size) fs to_path []

/-- The recorded-path recurrence of `export_chunks`: each path after the
first is `path_incremented` of its predecessor, evaluated against the
filesystem extended with the files written so far (the exported path is on
disk when the increment runs). -/
def incChainB (overwrite : Bool) (fuel : Nat) :
    List String → String → List String → Bool
  | _, _, [] => true
  | fs, expected, q :: rest =>
    decide (q = expected) &&
      match path_incremented (q :: fs) q overwrite fuel with
      | none => false
      | some next => incChainB overwrite fuel (q :: fs) next rest

/-! ## Lemmas about decimal representations -/

theorem char_digit_toNat {r : Nat} (h : r < 10) :
    (Char.ofNat (48 + r)).toNat = 48 + r := by
  interval_cases r <;> decide

theorem char_digit_isDigit {r : Nat} (h : r < 10) :
    (Char.ofNat (48 + r)).isDigit = true := by
  interval_cases r <;> decide

theorem natToRevDigits_all_digits :
    ∀ fuel n c, c ∈ natToRevDigits fuel n → c.isDigit = true := by
  intro fuel
  induction fuel with
  | zero => intro n c hc; simp [natToRevDigits] at hc
  | succ fuel ih =>
    intro n c hc
    by_cases hn : n = 0
    · simp [natToRevDigits, hn] at hc
    · simp only [natToRevDigits, if_neg hn, List.mem_cons] at hc
      rcases hc with hc | hc
      · subst hc; exact char_digit_isDigit (Nat.mod_lt _ (by omega))
      · exact ih _ _ hc

theorem natRepr_all_digits {n : Nat} {c : Char} (hc : c ∈ natRepr n) :
    c.isDigit = true := by
  unfold natRepr at hc
  by_cases hn : n = 0
  · simp [hn] at hc; subst hc; decide
  · rw [if_neg hn, List.mem_reverse] at hc
    exact natToRevDigits_all_digits _ _ _ hc

theorem natToRevDigits_revVal :
    ∀ fuel n, n ≤ fuel →
      (natToRevDigits fuel n).foldr (fun c a => 10 * a + (c.toNat - 48)) 0 = n := by
  intro fuel
  induction fuel with
  | zero => intro n hn; interval_cases n; simp [natToRevDigits]
  | succ fuel ih =>
    intro n hn
    by_cases hz : n = 0
    · simp [natToRevDigits, hz]
    · rw [natToRevDigits, if_neg hz]
      have hdiv : n / 10 ≤ fuel := by
        have := Nat.div_lt_self (Nat.pos_of_ne_zero hz) (by omega : 1 < 10)
        omega
      simp only [List.foldr_cons, ih _ hdiv,
        char_digit_toNat (Nat.mod_lt n (by omega : 0 < 10))]
      omega

theorem digitsVal_natRepr (n : Nat) : digitsVal (natRepr n) = n := by
  unfold natRepr
  by_cases hz : n = 0
  · simp [hz, digitsVal]
  · rw [if_neg hz]
    unfold digitsVal
    rw [List.foldl_reverse]
    exact natToRevDigits_revVal n n le_rfl

theorem natRepr_ne_nil (n : Nat) : natRepr n ≠ [] := by
  unfold natRepr
  by_cases hz : n = 0
  · simp [hz]
  · rw [if_neg hz]
    obtain ⟨m, rfl⟩ := Nat.exists_eq_succ_of_ne_zero hz
    rw [natToRevDigits, if_neg (by omega)]
    simp

/-! ## Lemmas about `replaceAll`, `containsSubL` and the digit window -/

theorem replaceAllFuel_nil (fuel pat rep) :
    replaceAllFuel fuel [] pat rep = [] := by
  cases fuel <;> rfl

theorem isPrefixOf_self (l : List Char) : l.isPrefixOf l = true := by
  induction l with
  | nil => rfl
  | cons c rest ih =>
    show (c == c && rest.isPrefixOf rest) = true
    simp [ih]

theorem replaceAllFuel_digit_suffix {val : List Char}
    (hval : ∀ c ∈ val, c.isDigit = true) (hne : val ≠ []) (rep : List Char) :
    ∀ (pre : List Char) (fuel : Nat), (pre ++ val).length ≤ fuel →
      (∀ c ∈ pre, c.isDigit = false) →
      replaceAllFuel fuel (pre ++ val) val rep = pre ++ rep := by
  intro pre
  induction pre with
  | nil =>
    intro fuel hfuel _
    obtain ⟨v, vs, rfl⟩ : ∃ v vs, val = v :: vs := by
      cases val with
      | nil => exact absurd rfl hne
      | cons v vs => exact ⟨v, vs, rfl⟩
    simp only [List.nil_append] at hfuel ⊢
    obtain ⟨f, rfl⟩ : ∃ f, fuel = f + 1 := by
      cases fuel with
      | zero => simp at hfuel
      | succ f => exact ⟨f, rfl⟩
    rw [replaceAllFuel, if_pos ⟨hne, isPrefixOf_self _⟩,
      List.drop_length, replaceAllFuel_nil, List.append_nil]
  | cons a pre ih =>
    intro fuel hfuel hpre
    obtain ⟨f, rfl⟩ : ∃ f, fuel = f + 1 := by
      cases fuel with
      | zero => simp at hfuel
      | succ f => exact ⟨f, rfl⟩
    obtain ⟨v, vs, rfl⟩ : ∃ v vs, val = v :: vs := by
      cases val with
      | nil => exact absurd rfl hne
      | cons v vs => exact ⟨v, vs, rfl⟩
    have hva : v ≠ a := by
      intro h
      have h1 := hval v (by simp)
      have h2 := hpre a (by simp)
      rw [h] at h1
      rw [h1] at h2
      simp at h2
    have hnotpre : (v :: vs).isPrefixOf (a :: (pre ++ (v :: vs))) = false := by
      simp only [List.isPrefixOf_cons₂]
      have : (v == a) = false := by
        simp [hva]
      simp [this]
    rw [List.cons_append, replaceAllFuel]
    rw [if_neg (by simp [hnotpre])]
    rw [ih f (by simp at hfuel ⊢; omega) (fun c hc => hpre c (by simp [hc]))]
    rfl

theorem replaceAll_digit_suffix {pre val rep : List Char}
    (hpre : ∀ c ∈ pre, c.isDigit = false)
    (hval : ∀ c ∈ val, c.isDigit = true) (hne : val ≠ []) :
    replaceAll (pre ++ val) val rep = pre ++ rep :=
  replaceAllFuel_digit_suffix hval hne rep pre _ le_rfl hpre

theorem containsSubL_suffix (pre pat : List Char) :
    containsSubL (pre ++ pat) pat = true := by
  induction pre with
  | nil =>
    cases pat with
    | nil => rfl
    | cons c rest =>
      simp only [List.nil_append, containsSubL]
      rw [isPrefixOf_self]
      rfl
  | cons a pre ih =>
    show (pat.isPrefixOf (a :: (pre ++ pat)) || containsSubL (pre ++ pat) pat) = true
    rw [ih, Bool.or_true]

theorem filter_digit_window {pre val : List Char}
    (hpre : ∀ c ∈ pre, c.isDigit = false)
    (hval : ∀ c ∈ val, c.isDigit = true) (hlen : val.length ≤ 3) :
    ((pre ++ val).drop ((pre ++ val).length - 3)).filter Char.isDigit = val := by
  have hk : (pre ++ val).length - 3 ≤ pre.length := by
    simp only [List.length_append]; omega
  rw [List.drop_append_of_le_length hk, List.filter_append]
  have h1 : (pre.drop ((pre ++ val).length - 3)).filter Char.isDigit = [] := by
    rw [List.filter_eq_nil_iff]
    intro c hc
    simp [hpre c (List.mem_of_mem_drop hc)]
  have h2 : val.filter Char.isDigit = val :=
    List.filter_eq_self.2 hval
  rw [h1, h2, List.nil_append]

/-! ## Lemmas about `incStep` and `pathIncLoop` -/

/-- The digit branch of the loop body: when the stem is a digit-free prefix
followed by a digit run of length at most three, the run is what the window
extracts, the replacement rewrites exactly the run, and the append fallback
does not fire. -/
theorem incStep_digit {pre val : List Char} {err : Nat}
    (hpre : ∀ c ∈ pre, c.isDigit = false)
    (hval : ∀ c ∈ val, c.isDigit = true)
    (hne : val ≠ []) (hlen : val.length ≤ 3) :
    incStep ⟨pre ++ val⟩ err = (⟨pre ++ natRepr (digitsVal val + 1)⟩, err) := by
  unfold incStep
  simp only [String.data]
  rw [filter_digit_window hpre hval hlen]
  rw [if_neg (by simp [List.isEmpty_iff, hne])]
  rw [replaceAll_digit_suffix hpre hval hne]
  rw [if_pos (containsSubL_suffix _ _)]

/-- The error-counter branch of the loop body: a stem with no digit among its
last three characters gets the error counter appended, and the counter is
bumped. -/
theorem incStep_nodigits {stem : List Char} {err : Nat}
    (h : ∀ c ∈ stem, c.isDigit = false) :
    incStep ⟨stem⟩ err = (⟨stem ++ natRepr err⟩, err + 1) := by
  unfold incStep
  simp only [String.data]
  rw [if_pos]
  rw [List.isEmpty_iff, List.filter_eq_nil_iff]
  intro c hc
  simp [h c (List.mem_of_mem_drop hc)]

theorem pathIncLoop_exit {fs : List String} {dir : String} {ow : Bool}
    {fuel : Nat} {p : String} {err : Nat} (h : p ∉ fs) :
    pathIncLoop fs dir ow (fuel + 1) p err = some p := by
  rw [pathIncLoop, if_neg h]

theorem pathIncLoop_step {fs : List String} {dir : String}
    {fuel : Nat} {p : String} {err : Nat} {nm2 : String} {err2 : Nat}
    (hp : p ∈ fs)
    (hstep : incStep (pySplitext (pyBasename p)).1 err = (nm2, err2))
    (herr : err2 ≤ 2500) :
    pathIncLoop fs dir false (fuel + 1) p err =
      pathIncLoop fs dir false fuel
        (pyJoin dir (nm2 ++ (pySplitext (pyBasename p)).2)) err2 := by
  rw [pathIncLoop, if_pos hp]
  simp only [hstep]
  rw [if_neg (by simp; omega)]

theorem trailingDigits_append_natRepr {pre : List Char} {n : Nat}
    (hpre : ∀ c ∈ pre, c.isDigit = false) :
    trailingDigits ⟨pre ++ natRepr n⟩ = natRepr n := by
  unfold trailingDigits
  simp only [String.data]
  rw [List.reverse_append]
  rw [List.takeWhile_append_of_pos
    (fun a ha => natRepr_all_digits (List.mem_reverse.1 ha))]
  have hstop : pre.reverse.takeWhile Char.isDigit = [] := by
    cases hrev : pre.reverse with
    | nil => rfl
    | cons c rest =>
      have hc : c ∈ pre := by
        rw [← List.mem_reverse, hrev]; simp
      rw [List.takeWhile_cons, hpre c hc]
      rfl
  rw [hstop, List.append_nil, List.reverse_reverse]

/-- Claim C1, counterexample.  The claim asserts that for an existing path
whose base name ends in digits `d`, `increment(p, False)` returns a path with
trailing digits `d + 1`.  With both `file1` and `file2` existing, the loop
keeps incrementing past the occupied candidate and returns `file3`, whose
trailing digit value is 3, not `1 + 1 = 2`. -/
theorem path_incremented_digits_cex :
    path_incremented ["file1", "file2"] "file1" false 10 = some "file3" ∧
    trailingDigitsVal (pySplitext (pyBasename "file3")).1 = 3 ∧
    trailingDigitsVal (pySplitext (pyBasename "file1")).1 + 1 = 2 ∧
    (3 : Nat) ≠ 2 := by
  refine ⟨by decide, by decide, by decide, by decide⟩

/-- Claim C1, amended: a path that does not exist is returned unchanged; and
for an existing path whose stem is a digit-free prefix followed by a digit
run `val` of length at most three, if the single-increment candidate (the
run replaced by `digitsVal val + 1`) does not exist, that candidate is
returned, its trailing digits equal `digitsVal val + 1`, and it does not
exist at call time. -/
theorem path_incremented_contract :
    (∀ (fs : List String) (p : String) (ow : Bool) (fuel : Nat),
      p ∉ fs → path_incremented fs p ow (fuel + 1) = some p) ∧
    (∀ (fs : List String) (p : String) (pre val : List Char) (ext : String)
      (fuel : Nat),
      pySplitext (pyBasename p) = (⟨pre ++ val⟩, ext) →
      (∀ c ∈ pre, c.isDigit = false) →
      (∀ c ∈ val, c.isDigit = true) →
      val ≠ [] → val.length ≤ 3 →
      p ∈ fs →
      pyJoin (pyDirname p) (⟨pre ++ natRepr (digitsVal val + 1)⟩ ++ ext) ∉ fs →
      path_incremented fs p false (fuel + 2) =
        some (pyJoin (pyDirname p)
          (⟨pre ++ natRepr (digitsVal val + 1)⟩ ++ ext)) ∧
      trailingDigitsVal ⟨pre ++ natRepr (digitsVal val + 1)⟩ =
        digitsVal val + 1 ∧
      pyJoin (pyDirname p) (⟨pre ++ natRepr (digitsVal val + 1)⟩ ++ ext) ∉ fs) := by
  constructor
  · intro fs p ow fuel h
    exact pathIncLoop_exit h
  · intro fs p pre val ext fuel hsplit hpre hval hne hlen hp hcand
    refine ⟨?_, ?_, hcand⟩
    · unfold path_incremented
      have hstep : incStep (pySplitext (pyBasename p)).1 2 =
          (⟨pre ++ natRepr (digitsVal val + 1)⟩, 2) := by
        rw [hsplit]
        exact incStep_digit hpre hval hne hlen
      rw [show fuel + 2 = (fuel + 1) + 1 from rfl]
      rw [pathIncLoop_step hp hstep (by omega)]
      rw [hsplit]
      exact pathIncLoop_exit hcand
    · unfold trailingDigitsVal
      rw [trailingDigits_append_natRepr hpre, digitsVal_natRepr]

/-- Witness for `path_incremented_contract` at concrete inputs. -/
theorem path_incremented_contract_witness :
    path_incremented [] "a.txt" false 5 = some "a.txt" ∧
    path_incremented ["file1"] "file1" false 6 = some "file2" ∧
    trailingDigitsVal "file2" = 2 := by
  refine ⟨path_incremented_contract.1 [] "a.txt" false 4 (by decide), ?_, by decide⟩
  have h := (path_incremented_contract.2 ["file1"] "file1" "file".data ['1'] "" 4
    (by decide) (by decide) (by decide) (by decide) (by decide) (by decide)
    (by decide)).1
  rw [h]
  decide

/-- Claim C7, counterexample.  The claim asserts that for a base name with no
extractable digits every iteration falls into the error-counter branch,
appending 2, 3, 4, and so on.  With `foo` and `foo2` both existing, the first
iteration appends 2, but the second iteration finds the digit `2` in the
window and takes the digit-increment branch, producing `foo3` instead of the
error-counter result `foo23`; the error counter therefore stays at 3 and the
2500 bound does not bound these iterations. -/
theorem path_incremented_error_branch_cex :
    path_incremented ["foo", "foo2"] "foo" false 11 = some "foo3" ∧
    "foo3" ≠ "foo23" := by
  refine ⟨by decide, by decide⟩

/-- Claim C7, amended: for an existing path whose stem has no digits, the
first iteration takes the error-counter branch and appends `2`; if that
candidate is free it is returned.  If the candidate also exists, the second
iteration takes the digit-increment branch (the appended `2` is now in the
window), producing the stem with `3` — not `stem ++ "23"` — with the error
counter stuck at 3, so the 2500 bound never triggers and termination relies
solely on reaching a free path. -/
theorem path_incremented_no_digits (fs : List String) (p : String)
    (stem : List Char) (ext : String) (fuel : Nat)
    (hsplit : pySplitext (pyBasename p) = (⟨stem⟩, ext))
    (hnd : ∀ c ∈ stem, c.isDigit = false)
    (hp : p ∈ fs) :
    (pyJoin (pyDirname p) (⟨stem ++ ['2']⟩ ++ ext) ∉ fs →
      path_incremented fs p false (fuel + 2) =
        some (pyJoin (pyDirname p) (⟨stem ++ ['2']⟩ ++ ext))) ∧
    (pyJoin (pyDirname p) (⟨stem ++ ['2']⟩ ++ ext) ∈ fs →
      pySplitext (pyBasename (pyJoin (pyDirname p) (⟨stem ++ ['2']⟩ ++ ext))) =
        (⟨stem ++ ['2']⟩, ext) →
      pyJoin (pyDirname p) (⟨stem ++ ['3']⟩ ++ ext) ∉ fs →
      path_incremented fs p false (fuel + 3) =
        some (pyJoin (pyDirname p) (⟨stem ++ ['3']⟩ ++ ext))) := by
  have hrepr2 : natRepr 2 = ['2'] := by decide
  have hstep1 : incStep (pySplitext (pyBasename p)).1 2 = (⟨stem ++ ['2']⟩, 3) := by
    rw [hsplit]
    have := @incStep_nodigits stem 2 hnd
    rw [hrepr2] at this
    exact this
  constructor
  · intro hfree
    unfold path_incremented
    rw [show fuel + 2 = (fuel + 1) + 1 from rfl]
    rw [pathIncLoop_step hp hstep1 (by omega)]
    rw [hsplit]
    exact pathIncLoop_exit hfree
  · intro h2 hsplit2 h3
    unfold path_incremented
    rw [show fuel + 3 = (fuel + 2) + 1 from rfl]
    rw [pathIncLoop_step hp hstep1 (by omega)]
    rw [hsplit]
    show pathIncLoop fs (pyDirname p) false (fuel + 1 + 1)
      (pyJoin (pyDirname p) (⟨stem ++ ['2']⟩ ++ ext)) 3 = _
    have hstep2 : incStep (pySplitext
        (pyBasename (pyJoin (pyDirname p) (⟨stem ++ ['2']⟩ ++ ext)))).1 3 =
        (⟨stem ++ ['3']⟩, 3) := by
      rw [hsplit2]
      have := @incStep_digit stem ['2'] 3 hnd
        (by intro c hc; simp at hc; subst hc; decide) (by simp) (by simp)
      have hval3 : natRepr (digitsVal ['2'] + 1) = ['3'] := by decide
      rw [hval3] at this
      exact this
    rw [pathIncLoop_step h2 hstep2 (by omega)]
    rw [hsplit2]
    exact pathIncLoop_exit h3

/-- Witness for `path_incremented_no_digits` at concrete inputs. -/
theorem path_incremented_no_digits_witness :
    path_incremented ["a", "a2"] "a" false 7 = some "a3" := by
  have h := (path_incremented_no_digits ["a", "a2"] "a" "a".data "" 4
    (by decide) (by decide) (by decide)).2 (by decide) (by decide) (by decide)
  rw [h]
  decide

/-! ## Claims about `read_csv` -/

/-- Claim C5: error routing of the encoding-fallback loop.  A codec-class
failure (the first `except` clause) moves on to the next candidate, logging
the exception exactly when `verbose`; any other failure whose message
mentions "tokenizing" moves on silently; any other failure is re-raised
immediately; and an exhausted candidate list yields the `IOError` naming the
file. -/
theorem read_csv_error_routing {α : Type} (attempt : String → AttemptResult α)
    (verbose : Bool) (fp : String) (c : String) (cs : List String)
    (log : List PyExc) (df : α) (e : PyExc) (m : String) :
    (read_csv_loop attempt verbose fp [] log = (.failedOpen fp, log)) ∧
    (attempt c = .ok df →
      read_csv_loop attempt verbose fp (c :: cs) log = (.table df, log)) ∧
    (attempt c = .raise e → isCodecCaught e = true →
      read_csv_loop attempt verbose fp (c :: cs) log =
        read_csv_loop attempt verbose fp cs
          (if verbose then log ++ [e] else log)) ∧
    (attempt c = .raise (.otherError m) → pyIn "tokenizing" m = true →
      read_csv_loop attempt verbose fp (c :: cs) log =
        read_csv_loop attempt verbose fp cs log) ∧
    (attempt c = .raise (.otherError m) → pyIn "tokenizing" m = false →
      read_csv_loop attempt verbose fp (c :: cs) log =
        (.raised (.otherError m), log)) := by
  refine ⟨rfl, ?_, ?_, ?_, ?_⟩
  · intro h
    rw [read_csv_loop, h]
  · intro h hc
    rw [read_csv_loop, h]
    simp only [hc, if_true]
  · intro h ht
    rw [read_csv_loop, h]
    simp only [isCodecCaught, pyStrExc, ht, Bool.false_eq_true, if_false, if_true]
  · intro h ht
    rw [read_csv_loop, h]
    simp only [isCodecCaught, pyStrExc, ht, Bool.false_eq_true, if_false]

/-- Witness for `read_csv_error_routing`: a non-tokenizing failure on the
first candidate is re-raised at once. -/
theorem read_csv_error_routing_witness :
    read_csv_loop (fun _ => AttemptResult.raise (PyExc.otherError "bad parse"))
        false "f.csv" ["utf8"] ([] : List PyExc) =
      ((ReadCsvResult.raised (PyExc.otherError "bad parse") :
        ReadCsvResult Nat), []) := by
  exact (read_csv_error_routing
      (fun _ => AttemptResult.raise (PyExc.otherError "bad parse"))
      false "f.csv" "utf8" [] [] 0 (PyExc.otherError "bad parse")
      "bad parse").2.2.2.2 rfl (by decide)

/-- Claim C2 (code bug): the source builds the candidate list as
`list(set([first_codec] + CODECS))`, whose order is the hash-dependent set
iteration order rather than insertion order.  The enumeration below is a
valid `pySetElems` enumeration of the set of `"utf8"` and `CODECS` that
starts with
`iso-8859-1`; under it the loop returns the iso-8859-1 parse even though
`first_codec = "utf8"` and a utf8 parse would succeed, while the order the
claim describes returns the utf8 parse. -/
theorem read_csv_codec_order_bug :
    pySetElems ("utf8" :: CODECS)
      ["iso-8859-1", "utf8", "ascii", "utf-16", "utf-32"] ∧
    (read_csv ((Sum.inr "data.csv") : String ⊕ String)
        (fun c => if c = "utf8" then .ok "utf8-parse"
          else if c = "iso-8859-1" then .ok "latin-parse"
          else .raise .unicodeDecodeError)
        ["iso-8859-1", "utf8", "ascii", "utf-16", "utf-32"] false).1 =
      .table "latin-parse" ∧
    (read_csv ((Sum.inr "data.csv") : String ⊕ String)
        (fun c => if c = "utf8" then .ok "utf8-parse"
          else if c = "iso-8859-1" then .ok "latin-parse"
          else .raise .unicodeDecodeError)
        ["utf8", "iso-8859-1", "ascii", "utf-16", "utf-32"] false).1 =
      .table "utf8-parse" ∧
    (ReadCsvResult.table "latin-parse" : ReadCsvResult String) ≠
      .table "utf8-parse" := by
  refine ⟨⟨by decide, by decide, by decide⟩, by decide, by decide, by decide⟩

/-! ## Claims about the dispatchers -/

/-- Claim C3 (code bug): `export` compares the extension against the xlsx
literal by identity (`is`), so
the spreadsheet branch is unreachable and an `.xlsx` path falls through to
the `NotImplementedError`, while `.txt` and `.csv` reach the delimited-text
writer. -/
theorem export_xlsx_dispatch_bug :
    exportDf "out.xlsx" = .notImplementedError ".xlsx" ∧
    exportDf "t.txt" = .toCsv "t.txt" ∧
    exportDf "t.csv" = .toCsv "t.csv" ∧
    ExportAction.notImplementedError ".xlsx" ≠ .toExcel "out.xlsx" := by
  refine ⟨by decide, by decide, by decide, by decide⟩

/-- Claim C8 (code bug): `_identify_separator` asserts
membership of the extension in `[".csv", ".txt"]`, so a `.tsv` path fails
with the unexpected-
extension error even though the error message itself names
`[".csv", ".txt", ".tsv"]` as the supported extensions; other extensions
fail as the claim says, and `.csv`/`.txt` pass the precondition. -/
theorem identify_separator_tsv_bug :
    _identify_separator "data.tsv" "a\tb" =
      .unexpectedExtension ".tsv" [".csv", ".txt", ".tsv"] ∧
    _identify_separator "data.json" "a,b" =
      .unexpectedExtension ".json" [".csv", ".txt", ".tsv"] ∧
    _identify_separator "data.csv" "a,b" = .found ',' ∧
    _identify_separator "DATA.TXT" "a,b" = .found ',' := by
  refine ⟨by decide, by decide, by decide, by decide⟩

/-- Claim C10: the h5 branch of `read_file` tests membership of the lowered
extension in the *string* `".h5"` (the parenthesised literal is not a
tuple), i.e. a substring test, so every lowered
extension that is a substring of `.h5` — the empty extension, a bare
trailing dot, `.h` and `.h5` itself — routes to the HDF reader instead of
the unsupported-extension error. -/
theorem read_file_h5_substring (fp : String) :
    (asciiLower (pySplitext fp).2 ∉ ([".xlsx", ".xls"] : List String) →
      asciiLower (pySplitext fp).2 ∉ ([".txt", ".tsv", ".csv"] : List String) →
      asciiLower (pySplitext fp).2 ∉ ([".gz", ".bz2", ".zip", "xz"] : List String) →
      (read_file fp = .readHdf ↔ pyIn (asciiLower (pySplitext fp).2) ".h5" = true)) ∧
    read_file "data" = .readHdf ∧
    read_file "data." = .readHdf ∧
    read_file "data.h" = .readHdf ∧
    read_file "data.h5" = .readHdf := by
  refine ⟨?_, by decide, by decide, by decide, by decide⟩
  intro h1 h2 h3
  unfold read_file
  rw [if_neg h1, if_neg h2, if_neg h3]
  constructor
  · intro hr
    by_cases hh : pyIn (asciiLower (pySplitext fp).2) ".h5" = true
    · exact hh
    · rw [if_neg (by simp [hh])] at hr
      exact absurd hr (by simp)
  · intro hh
    rw [if_pos hh]

/-- Witness for `read_file_h5_substring`: a path with no extension at all is
routed to the HDF reader. -/
theorem read_file_h5_substring_witness : read_file "report" = .readHdf := by
  have h := (read_file_h5_substring "report").1 (by decide) (by decide) (by decide)
  exact h.2 (by decide)

/-! ## Claim about `_identify_separator` (first-seen maximum) -/

theorem pyMaxKey_split :
    ∀ (l : List (Char × Nat)) (b : Char × Nat),
      ∃ l₁ l₂, b :: l = l₁ ++ pyMaxKey b l :: l₂ ∧
        (∀ a ∈ l₁, a.2 < (pyMaxKey b l).2) ∧
        (∀ a ∈ l₂, a.2 ≤ (pyMaxKey b l).2) := by
  intro l
  induction l with
  | nil =>
    intro b
    exact ⟨[], [], rfl, by simp, by simp⟩
  | cons x xs ih =>
    intro b
    rw [pyMaxKey]
    by_cases h : b.2 < x.2
    · rw [if_pos h]
      obtain ⟨m₁, m₂, hdec, hlt, hle⟩ := ih x
      refine ⟨b :: m₁, m₂, by rw [List.cons_append, ← hdec], ?_, hle⟩
      intro a ha
      rcases List.mem_cons.1 ha with rfl | ha
      · have hx : x.2 ≤ (pyMaxKey x xs).2 := by
          cases m₁ with
          | nil =>
            rw [List.nil_append] at hdec
            have := List.cons.inj hdec
            rw [← this.1]
          | cons y ys =>
            rw [List.cons_append] at hdec
            have hy := List.cons.inj hdec
            have : x ∈ y :: ys := by rw [hy.1]; simp
            exact le_of_lt (hlt x this)
        omega
      · exact hlt a ha
    · rw [if_neg h]
      obtain ⟨m₁, m₂, hdec, hlt, hle⟩ := ih b
      cases m₁ with
      | nil =>
        rw [List.nil_append] at hdec
        have hinj := List.cons.inj hdec
        refine ⟨[], x :: m₂, ?_, by simp, ?_⟩
        · rw [List.nil_append, ← hinj.1, ← hinj.2]
        · intro a ha
          rcases List.mem_cons.1 ha with rfl | ha
          · rw [← hinj.1]; omega
          · exact hle a ha
      | cons y ys =>
        rw [List.cons_append] at hdec
        have hinj := List.cons.inj hdec
        refine ⟨b :: x :: ys, m₂, ?_, ?_, hle⟩
        · rw [List.cons_append, List.cons_append, ← hinj.2]
        · intro a ha
          have hbmem : b ∈ y :: ys := by rw [hinj.1]; simp
          have hblt : b.2 < (pyMaxKey b xs).2 := hlt b hbmem
          rcases List.mem_cons.1 ha with rfl | ha
          · exact hblt
          · rcases List.mem_cons.1 ha with rfl | ha
            · omega
            · exact hlt a (by simp [ha])

theorem filter_map_split {β γ : Type} (g : β → γ) (P : γ → Bool) :
    ∀ (L : List β) (A B : List γ) (x : γ),
      (L.map g).filter P = A ++ x :: B →
      ∃ u s w, L = u ++ s :: w ∧ g s = x ∧
        (u.map g).filter P = A ∧ (w.map g).filter P = B := by
  intro L
  induction L with
  | nil =>
    intro A B x h
    simp at h
  | cons a L ih =>
    intro A B x h
    by_cases hP : P (g a)
    · rw [List.map_cons, List.filter_cons, if_pos hP] at h
      cases A with
      | nil =>
        rw [List.nil_append] at h
        have hinj := List.cons.inj h
        exact ⟨[], a, L, rfl, hinj.1, rfl, hinj.2⟩
      | cons a' A' =>
        rw [List.cons_append] at h
        have hinj := List.cons.inj h
        obtain ⟨u, s, w, rfl, hgs, hu, hw⟩ := ih A' B x hinj.2
        refine ⟨a :: u, s, w, rfl, hgs, ?_, hw⟩
        rw [List.map_cons, List.filter_cons, if_pos hP, hu, hinj.1]
    · rw [List.map_cons, List.filter_cons, if_neg hP] at h
      obtain ⟨u, s, w, rfl, hgs, hu, hw⟩ := ih A B x h
      refine ⟨a :: u, s, w, rfl, hgs, ?_, hw⟩
      rw [List.map_cons, List.filter_cons, if_neg hP, hu]

/-- Claim C4: given the header line, if no candidate separator occurs in it,
the result is the "unable to identify separator" error carrying the header
and the searched candidates; otherwise the returned candidate has a positive
count that is maximal, and every candidate listed before it in `maybe_seps`
has a strictly smaller count (first-seen maximum, so ties break by the fixed
order `| ; , \t :`); and on `"a,b;c,d,e"` the comma wins. -/
theorem identify_separator_first_max (header : String) :
    ((∀ s ∈ maybe_seps, _countChar s header = 0) →
      _identify_separator_header header = .unidentified header maybe_seps) ∧
    ((∃ s ∈ maybe_seps, 0 < _countChar s header) →
      ∃ c l₁ l₂, maybe_seps = l₁ ++ c :: l₂ ∧
        _identify_separator_header header = .found c ∧
        0 < _countChar c header ∧
        (∀ s ∈ l₁, _countChar s header < _countChar c header) ∧
        (∀ s ∈ maybe_seps, _countChar s header ≤ _countChar c header)) ∧
    _identify_separator_header "a,b;c,d,e" = .found ',' := by
  refine ⟨?_, ?_, by decide⟩
  · intro h
    have hpos : (maybe_seps.map (fun sep => (sep, _countChar sep header))).filter
        (fun p => decide (0 < p.2)) = [] := by
      rw [List.filter_eq_nil_iff]
      intro p hp
      obtain ⟨s, hs, rfl⟩ := List.mem_map.1 hp
      simp [h s hs]
    unfold _identify_separator_header
    rw [hpos]
  · intro hex
    obtain ⟨s0, hs0, hc0⟩ := hex
    set g : Char → Char × Nat := fun sep => (sep, _countChar sep header) with hg
    set P : Char × Nat → Bool := fun p => decide (0 < p.2) with hP
    have hmem : g s0 ∈ (maybe_seps.map g).filter P :=
      List.mem_filter.2 ⟨List.mem_map_of_mem g hs0, by simp [hP, hc0]⟩
    cases hpos : (maybe_seps.map g).filter P with
    | nil => rw [hpos] at hmem; simp at hmem
    | cons f fs =>
      have hres : _identify_separator_header header = .found (pyMaxKey f fs).1 := by
        unfold _identify_separator_header
        rw [← hg, ← hP, hpos]
      obtain ⟨m₁, m₂, hdec, hlt, hle⟩ := pyMaxKey_split fs f
      set r := pyMaxKey f fs with hr
      have hfilter : (maybe_seps.map g).filter P = m₁ ++ r :: m₂ := by
        rw [hpos, hdec]
      obtain ⟨u, s, w, hseps, hgs, hu, hw⟩ :=
        filter_map_split g P maybe_seps m₁ m₂ r hfilter
      have hs1 : r.1 = s := by rw [← hgs]
      have hs2 : r.2 = _countChar s header := by rw [← hgs]
      have hrmem : r ∈ (maybe_seps.map g).filter P := by
        rw [hfilter]
        exact List.mem_append.2 (Or.inr (by simp))
      have hrpos : 0 < r.2 := by
        have := (List.mem_filter.1 hrmem).2
        simpa [hP] using this
      refine ⟨s, u, w, hseps, by rw [hres, hs1], by rw [← hs2]; exact hrpos, ?_, ?_⟩
      · intro t ht
        by_cases hPt : P (g t)
        · have : g t ∈ m₁ := by
            rw [← hu]
            exact List.mem_filter.2 ⟨List.mem_map_of_mem g ht, hPt⟩
          have := hlt (g t) this
          rw [hs2] at this
          exact this
        · have : _countChar t header = 0 := by
            simp [hP, hg] at hPt
            exact hPt
          rw [this, ← hs2]
          exact hrpos
      · intro t ht
        rw [hseps] at ht
        rcases List.mem_append.1 ht with htu | hts
        · by_cases hPt : P (g t)
          · have : g t ∈ m₁ := by
              rw [← hu]
              exact List.mem_filter.2 ⟨List.mem_map_of_mem g htu, hPt⟩
            have := hlt (g t) this
            rw [hs2] at this
            exact le_of_lt this
          · have : _countChar t header = 0 := by
              simp [hP, hg] at hPt
              exact hPt
            rw [this]
            exact Nat.zero_le _
        · rcases List.mem_cons.1 hts with rfl | htw
          · exact le_rfl
          · by_cases hPt : P (g t)
            · have : g t ∈ m₂ := by
                rw [← hw]
                exact List.mem_filter.2 ⟨List.mem_map_of_mem g htw, hPt⟩
              have := hle (g t) this
              rw [hs2] at this
              exact this
            · have : _countChar t header = 0 := by
                simp [hP, hg] at hPt
                exact hPt
              rw [this]
              exact Nat.zero_le _

/-- Witness for `identify_separator_first_max`: a header containing no
candidate at all yields the unidentified-separator error. -/
theorem identify_separator_first_max_witness :
    _identify_separator_header "abc" = .unidentified "abc" maybe_seps :=
  (identify_separator_first_max "abc").1 (by decide)


/-! ## Claim about `chunks` -/

theorem chunksLoopF_nil {α : Type} (k fuel : Nat) :
    chunksLoopF k fuel ([] : List α) = [] := by
  cases fuel <;> rfl

theorem chunksLoopF_flatten {α : Type} (k : Nat) :
    ∀ (fuel : Nat) (df : List α), (chunksLoopF k fuel df).flatten = df := by
  intro fuel
  induction fuel with
  | zero =>
    intro df
    cases df with
    | nil => rfl
    | cons d ds => simp [chunksLoopF, List.flatten]
  | succ fuel ih =>
    intro df
    cases df with
    | nil => rfl
    | cons d ds =>
      show ((d :: ds).take k ++ (chunksLoopF k fuel ((d :: ds).drop k)).flatten) = d :: ds
      rw [ih, List.take_append_drop]

theorem chunksLoopF_mem {α : Type} {k : Nat} (hk : 0 < k) :
    ∀ (fuel : Nat) (df : List α), df.length ≤ fuel →
      ∀ c ∈ chunksLoopF k fuel df, c ≠ [] ∧ c.length ≤ k := by
  intro fuel
  induction fuel with
  | zero =>
    intro df hlen c hc
    have : df = [] := List.eq_nil_of_length_eq_zero (by omega)
    subst this
    rw [chunksLoopF_nil] at hc
    simp at hc
  | succ fuel ih =>
    intro df hlen c hc
    cases df with
    | nil =>
      rw [chunksLoopF_nil] at hc
      simp at hc
    | cons d ds =>
      rcases List.mem_cons.1 hc with rfl | hc
      · constructor
        · cases hke : k with
          | zero => omega
          | succ k' => simp [List.take]
        · exact List.length_take_le k (d :: ds)
      · refine ih ((d :: ds).drop k) ?_ c hc
        rw [List.length_drop]
        simp only [List.length_cons] at hlen ⊢
        omega

theorem chunksLoopF_dropLast {α : Type} {k : Nat} (hk : 0 < k) :
    ∀ (fuel : Nat) (df : List α), df.length ≤ fuel →
      ∀ c ∈ (chunksLoopF k fuel df).dropLast, c.length = k := by
  intro fuel
  induction fuel with
  | zero =>
    intro df hlen c hc
    have : df = [] := List.eq_nil_of_length_eq_zero (by omega)
    subst this
    rw [chunksLoopF_nil] at hc
    simp at hc
  | succ fuel ih =>
    intro df hlen c hc
    cases df with
    | nil =>
      rw [chunksLoopF_nil] at hc
      simp at hc
    | cons d ds =>
      have hshape : chunksLoopF k (fuel + 1) (d :: ds) =
          (d :: ds).take k :: chunksLoopF k fuel ((d :: ds).drop k) := rfl
      rw [hshape] at hc
      cases hrest : chunksLoopF k fuel ((d :: ds).drop k) with
      | nil =>
        rw [hrest] at hc
        simp at hc
      | cons r rs =>
        rw [hrest, List.dropLast_cons₂] at hc
        rcases List.mem_cons.1 hc with rfl | hc
        · have hdropne : (d :: ds).drop k ≠ [] := by
            intro hnil
            rw [hnil, chunksLoopF_nil] at hrest
            exact List.noConfusion hrest
          have hklen : k < (d :: ds).length := by
            by_contra hc2
            exact hdropne (List.drop_eq_nil_iff.2 (by omega))
          rw [List.length_take]
          omega
        · have := ih ((d :: ds).drop k)
            (by rw [List.length_drop]; simp only [List.length_cons] at hlen ⊢; omega)
          rw [hrest] at this
          exact this c hc

/-- Claim C6: with an unset, non-positive or too-large chunk size, `chunks`
yields exactly one chunk, the whole table; with `0 < k <` the row count it
yields consecutive slices whose concatenation is the table, every chunk
non-empty of length at most `k` and all but the last of length exactly `k`;
and a 10-row table with chunk size 3 gives sizes `[3, 3, 3, 1]` concatenating
back to the table. -/
theorem chunks_spec {α : Type} (df : List α) (cs : Option Int) :
    ((cs = none ∨ ∃ k, cs = some k ∧ (k ≤ 0 ∨ (df.length : Int) ≤ k)) →
      chunks df cs = [df]) ∧
    (∀ k : Int, cs = some k → 0 < k → k < (df.length : Int) →
      (chunks df cs).flatten = df ∧
      (∀ c ∈ (chunks df cs).dropLast, c.length = k.toNat) ∧
      (∀ c ∈ chunks df cs, c ≠ [] ∧ c.length ≤ k.toNat)) ∧
    ((chunks (List.range 10) (some 3)).map List.length = [3, 3, 3, 1] ∧
      (chunks (List.range 10) (some 3)).flatten = List.range 10) := by
  refine ⟨?_, ?_, by decide, by decide⟩
  · intro h
    rcases h with rfl | ⟨k, rfl, hk⟩
    · rfl
    · show (if k ≤ 0 ∨ (df.length : Int) ≤ k then [df]
        else chunksLoopF k.toNat df.length df) = [df]
      rw [if_pos hk]
  · intro k hcs hk0 hklen
    subst hcs
    have hcond : ¬(k ≤ 0 ∨ (df.length : Int) ≤ k) := by omega
    have hchunks : chunks df (some k) = chunksLoopF k.toNat df.length df := by
      show (if k ≤ 0 ∨ (df.length : Int) ≤ k then [df]
        else chunksLoopF k.toNat df.length df) = _
      rw [if_neg hcond]
    have hkpos : 0 < k.toNat := by omega
    refine ⟨?_, ?_, ?_⟩
    · rw [hchunks]
      exact chunksLoopF_flatten k.toNat df.length df
    · rw [hchunks]
      exact chunksLoopF_dropLast hkpos df.length df le_rfl
    · rw [hchunks]
      exact chunksLoopF_mem hkpos df.length df le_rfl

/-- Witness for `chunks_spec`: the 10-row, chunk-size-3 instance obtained by
applying the theorem. -/
theorem chunks_spec_witness :
    (chunks (List.range 10) (some 3)).flatten = List.range 10 ∧
    chunks ([7] : List Nat) none = [[7]] := by
  constructor
  · exact ((chunks_spec (List.range 10) (some 3)).2.1 3 rfl (by decide)
      (by simp)).1
  · exact (chunks_spec ([7] : List Nat) none).1 (Or.inl rfl)

/-! ## Claims about `export_chunks` -/

theorem chunks_ne_nil {α : Type} (df : List α) (cs : Option Int) :
    chunks df cs ≠ [] := by
  match cs with
  | none => simp [chunks]
  | some k =>
    show (if k ≤ 0 ∨ (df.length : Int) ≤ k then [df]
      else chunksLoopF k.toNat df.length df) ≠ []
    by_cases h : k ≤ 0 ∨ (df.length : Int) ≤ k
    · rw [if_pos h]
      simp
    · rw [if_neg h]
      have hpos : df ≠ [] := by
        intro hnil
        subst hnil
        simp at h
        omega
      obtain ⟨d, ds, rfl⟩ : ∃ d ds, df = d :: ds := by
        cases df with
        | nil => exact absurd rfl hpos
        | cons d ds => exact ⟨d, ds, rfl⟩
      have hlenpos : 0 < (d :: ds).length := by simp
      obtain ⟨f, hf⟩ : ∃ f, (d :: ds).length = f + 1 :=
        ⟨ds.length, by simp⟩
      rw [hf]
      show List.take k.toNat (d :: ds) :: _ ≠ []
      simp

theorem exportChunksLoop_spec {α : Type} (ow : Bool) (fuel : Nat) :
    ∀ (chs : List (List α)) (fs : List String) (tp : String)
      (acc paths : List String),
      exportChunksLoop ow fuel chs fs tp acc = some (.ok paths) →
      ∃ tail, paths = acc ++ tail ∧ tail.length = chs.length ∧
        incChainB ow fuel fs tp tail = true ∧
        (chs ≠ [] → tail.head? = some tp) := by
  intro chs
  induction chs with
  | nil =>
    intro fs tp acc paths h
    rw [exportChunksLoop] at h
    have : acc = paths := by
      have := Option.some.inj h
      exact ExportChunksOutcome.ok.inj this
    subst this
    exact ⟨[], by simp, rfl, rfl, by intro hne; exact absurd rfl hne⟩
  | cons ch rest ih =>
    intro fs tp acc paths h
    rw [exportChunksLoop] at h
    cases hexp : exportDf tp with
    | notImplementedError e =>
      rw [hexp] at h
      simp at h
    | toExcel q =>
      simp only [hexp] at h
      cases hinc : path_incremented (tp :: fs) tp ow fuel with
      | none => simp [hinc] at h
      | some next =>
        simp only [hinc] at h
        obtain ⟨tail, htail, hlen, hchain, _⟩ := ih (tp :: fs) next (acc ++ [tp]) paths h
        refine ⟨tp :: tail, by simp [htail], by simp [hlen], ?_, by simp⟩
        rw [incChainB]
        simp only [decide_True, Bool.true_and]
        rw [hinc]
        exact hchain
    | toCsv q =>
      simp only [hexp] at h
      cases hinc : path_incremented (tp :: fs) tp ow fuel with
      | none => simp [hinc] at h
      | some next =>
        simp only [hinc] at h
        obtain ⟨tail, htail, hlen, hchain, _⟩ := ih (tp :: fs) next (acc ++ [tp]) paths h
        refine ⟨tp :: tail, by simp [htail], by simp [hlen], ?_, by simp⟩
        rw [incChainB]
        simp only [decide_True, Bool.true_and]
        rw [hinc]
        exact hchain

/-- Claim C9, counterexample.  The claim quantifies over every base path, but
for a path whose extension the export dispatch rejects, `export` raises
before any path is recorded, so `export_chunks` produces no list of paths at
all (one chunk, zero recorded paths). -/
theorem export_chunks_unsupported_ext_cex :
    export_chunks ([] : List String) [(0 : Int)] "x.json" none true 10 =
      some (.dispatchError ".json") ∧
    (chunks [(0 : Int)] none).length = 1 ∧
    some (ExportChunksOutcome.dispatchError ".json") ≠
      some (ExportChunksOutcome.ok ["x.json"]) := by
  refine ⟨by decide, by decide, by decide⟩

/-- Claim C9, amended: whenever `export_chunks` returns a path list (each
export of each chunk dispatched successfully and every increment terminated
within
the model fuel), it returns exactly one recorded path per chunk, in order;
the first recorded path is the base path; and each subsequent recorded path
is `path_incremented` of the previous one with the given overwrite flag,
evaluated after the previous path was written to disk. -/
theorem export_chunks_paths {α : Type} (fs : List String) (df : List α)
    (tp : String) (ms : Option Int) (ow : Bool) (fuel : Nat)
    (paths : List String)
    (h : export_chunks fs df tp ms ow fuel = some (.ok paths)) :
    paths.length = (chunks df ms).length ∧
    paths.head? = some tp ∧
    incChainB ow fuel fs tp paths = true := by
  obtain ⟨tail, htail, hlen, hchain, hhead⟩ :=
    exportChunksLoop_spec ow fuel (chunks df ms) fs tp [] paths h
  rw [List.nil_append] at htail
  subst htail
  exact ⟨hlen, hhead (chunks_ne_nil df ms), hchain⟩

/-- Witness for `export_chunks_paths`: a two-row table exported in one-row
chunks to `out.csv` records `out.csv` then `out2.csv`, linked by the
increment chain. -/
theorem export_chunks_paths_witness :
    (["out.csv", "out2.csv"] : List String).length =
      (chunks ([3, 4] : List Int) (some 1)).length ∧
    (["out.csv", "out2.csv"] : List String).head? = some "out.csv" ∧
    incChainB false 6 [] "out.csv" ["out.csv", "out2.csv"] = true :=
  export_chunks_paths [] ([3, 4] : List Int) "out.csv" (some 1) false 6
    ["out.csv", "out2.csv"] (by decide)
